import Mathlib

/-!
Verification of the schema-IDB core: schema introspection, diffing,
classification, version resolution, migration registry and upgrade
execution.  The TypeScript sources (`schemaDetection`, `createSchemaDB`,
`transaction`) are shallowly embedded below: `Map`s become association
lists in insertion order, mutable push-loops become list concatenations
in push order, thrown errors become `Except`, and the hosting IndexedDB
engine (an external collaborator) is modelled from the specification.
-/

namespace SchemaIDB

/-- A keyPath payload: a single field name or an ordered list of field
names (the TS type `string | string[]`). -/
inductive KeyPath where
  | scalar (field : String)
  | fields (path : List String)
deriving DecidableEq

/-- An index definition from a static store declaration (`IndexDefinition`
in types.js, reconstructed from its uses): `unique` and `multiEntry` are
optional booleans, read back with `?? false`. -/
structure IndexDefinition where
  name : String
  keyPath : KeyPath
  unique : Option Bool
  multiEntry : Option Bool
deriving DecidableEq

/-- Index metadata read back from an existing database (an `IDBIndex`). -/
structure ExistingIndex where
  keyPath : KeyPath
  unique : Bool
  multiEntry : Bool
deriving DecidableEq

/-- `ExistingStoreSchema` from schemaDetection: the keyPath may be `null`
(`none` here); `indexes` is a `Map` in insertion order, modelled as an
association list. -/
structure ExistingStoreSchema where
  name : String
  keyPath : Option KeyPath
  indexes : List (String × ExistingIndex)
deriving DecidableEq

/-- `DesiredStoreSchema` from schemaDetection: the keyPath may be
`undefined` (`none` here). -/
structure DesiredStoreSchema where
  name : String
  keyPath : Option KeyPath
  indexes : List IndexDefinition
deriving DecidableEq

/-- The `SchemaChangeType` tagged union from schemaDetection. -/
inductive SchemaChangeType where
  | store_add (storeName : String)
  | store_delete (storeName : String)
  | store_rename (oldName newName : String)
  | keypath_change (storeName : String) (oldKeyPath newKeyPath : Option KeyPath)
  | index_add (storeName indexName : String) (index : IndexDefinition)
  | index_delete (storeName indexName : String)
  | index_modify (storeName indexName : String) (oldIndex : ExistingIndex) (newIndex : IndexDefinition)
deriving DecidableEq

/-- The `SchemaChanges` result record.  `hasChanges` is a stored field
computed once at construction (the TS object literal), not recomputed. -/
structure SchemaChanges where
  safe : List SchemaChangeType
  dangerous : List SchemaChangeType
  hasChanges : Bool
deriving DecidableEq

/-- `keyPathEquals` from schemaDetection.  In TS, `null` and `undefined`
compare equal to each other (`a == null`) and to nothing else; a scalar
never equals a field list; lists compare by length and pointwise `===`. -/
def keyPathEquals : Option KeyPath → Option KeyPath → Bool
  | none, none => true
  | some (.scalar a), some (.scalar b) => a == b
  | some (.fields a), some (.fields b) =>
      a.length == b.length && (List.zip a b).all fun p => p.1 == p.2
  | _, _ => false

/-- `isInternalStore` from schemaDetection: a store whose name starts
with `__` is internal (the ledger store and backup stores).  The TS
`storeName.startsWith("__")` is modelled on the character list. -/
def isInternalStore (storeName : String) : Bool :=
  storeName.data.take 2 == "__".data

/-- The body of the per-desired-index loop in `detectSchemaChanges`: an
index absent from the existing store yields `index_add`; one whose
keyPath, unique flag or multiEntry flag changed yields `index_delete`
immediately followed by `index_add`; an unchanged index yields nothing. -/
def diffDesiredIndex (storeName : String) (existingStore : ExistingStoreSchema)
    (desiredIndex : IndexDefinition) : List SchemaChangeType :=
  match existingStore.indexes.lookup desiredIndex.name with
  | none => [.index_add storeName desiredIndex.name desiredIndex]
  | some existingIndex =>
    let keyPathChanged := !keyPathEquals (some existingIndex.keyPath) (some desiredIndex.keyPath)
    let uniqueChanged := existingIndex.unique != desiredIndex.unique.getD false
    let multiEntryChanged := existingIndex.multiEntry != desiredIndex.multiEntry.getD false
    if keyPathChanged || uniqueChanged || multiEntryChanged then
      [.index_delete storeName desiredIndex.name,
       .index_add storeName desiredIndex.name desiredIndex]
    else []

/-- The deleted-index loop of `detectSchemaChanges`: every existing index
name absent from the desired index names yields `index_delete`. -/
def deletedIndexChanges (storeName : String) (existingStore : ExistingStoreSchema)
    (desiredStore : DesiredStoreSchema) : List SchemaChangeType :=
  (existingStore.indexes.map Prod.fst).filterMap fun existingIndexName =>
    if desiredStore.indexes.any fun i => i.name == existingIndexName then none
    else some (.index_delete storeName existingIndexName)

/-- The safe changes pushed while `detectSchemaChanges` processes one
desired store: a missing store yields `store_add`; a store whose keyPath
changed yields nothing safe (index comparison is skipped); otherwise the
index diff runs. -/
def storeSafeChanges (existing : List ExistingStoreSchema)
    (desiredStore : DesiredStoreSchema) : List SchemaChangeType :=
  match existing.find? fun e => e.name == desiredStore.name with
  | none => [.store_add desiredStore.name]
  | some existingStore =>
    if !keyPathEquals existingStore.keyPath desiredStore.keyPath then []
    else
      desiredStore.indexes.flatMap (diffDesiredIndex desiredStore.name existingStore)
        ++ deletedIndexChanges desiredStore.name existingStore desiredStore

/-- The dangerous changes pushed while `detectSchemaChanges` processes one
desired store: exactly the `keypath_change` when the keyPaths differ. -/
def storeDangerousChanges (existing : List ExistingStoreSchema)
    (desiredStore : DesiredStoreSchema) : List SchemaChangeType :=
  match existing.find? fun e => e.name == desiredStore.name with
  | none => []
  | some existingStore =>
    if !keyPathEquals existingStore.keyPath desiredStore.keyPath then
      [.keypath_change desiredStore.name existingStore.keyPath desiredStore.keyPath]
    else []

/-- The deleted-store loop of `detectSchemaChanges`: every existing store
absent from the desired schema yields a dangerous `store_delete`. -/
def deletedStoreChanges (existing : List ExistingStoreSchema)
    (desired : List DesiredStoreSchema) : List SchemaChangeType :=
  existing.filterMap fun e =>
    if desired.any fun d => d.name == e.name then none
    else some (.store_delete e.name)

/-- `detectSchemaChanges` from schemaDetection.  The two `Map` arguments
are lists of store schemas in insertion order; `safe` and `dangerous`
collect the pushes of the imperative loops in push order. -/
def detectSchemaChanges (existing : List ExistingStoreSchema)
    (desired : List DesiredStoreSchema) : SchemaChanges :=
  let safe := desired.flatMap (storeSafeChanges existing)
  let dangerous := desired.flatMap (storeDangerousChanges existing)
    ++ deletedStoreChanges existing desired
  { safe := safe, dangerous := dangerous,
    hasChanges := safe.length > 0 || dangerous.length > 0 }

/-- Classifier used to state frame conditions: is this change an
index-level change (`index_add`, `index_delete` or `index_modify`)
attached to the given store? -/
def isIndexChangeFor (storeName : String) : SchemaChangeType → Bool
  | .index_add s _ _ => s == storeName
  | .index_delete s _ => s == storeName
  | .index_modify s _ _ _ => s == storeName
  | _ => false

/-- The `removedStoreStrategy` configuration: `error` (default) leaves
store deletions dangerous, `preserve` rewrites them into backups. -/
inductive RemovedStoreStrategy where
  | error
  | preserve
deriving DecidableEq

/-- The backup store name built under the `preserve` strategy: the TS
template literal wrapping the store name and the current pre-upgrade
version as `__` + name + `_deleted_v` + version + `__`. -/
def backupName (storeName : String) (currentVersion : Nat) : String :=
  "__" ++ storeName ++ "_deleted_v" ++ toString currentVersion ++ "__"

/-- The dangerous-change rewriting loop that appears identically in
`determineAutoVersion` and in the explicit branch of
`initializeDatabase`: under `preserve` every `store_delete` becomes a
safe `store_rename` to its backup name; every other dangerous change
stays dangerous.  Returns (safe additions, remaining dangerous), each in
iteration order. -/
def policyRewrite (strategy : RemovedStoreStrategy) (currentVersion : Nat) :
    List SchemaChangeType → List SchemaChangeType × List SchemaChangeType
  | [] => ([], [])
  | c :: rest =>
    let tail := policyRewrite strategy currentVersion rest
    match c, strategy with
    | .store_delete storeName, .preserve =>
        (.store_rename storeName (backupName storeName currentVersion) :: tail.1, tail.2)
    | _, _ => (tail.1, c :: tail.2)

/-- The effect of the rewriting loop on a `SchemaChanges` value: the
renames are pushed onto the end of the safe list, the dangerous list is
replaced by the remainder, and `hasChanges` is not recomputed. -/
def applyRemovedStorePolicy (strategy : RemovedStoreStrategy) (currentVersion : Nat)
    (changes : SchemaChanges) : SchemaChanges :=
  let rewritten := policyRewrite strategy currentVersion changes.dangerous
  { safe := changes.safe ++ rewritten.1, dangerous := rewritten.2,
    hasChanges := changes.hasChanges }

/-- JS string coercion of a keyPath value: an array stringifies as its
elements joined with commas. -/
def keyPathValueToString : KeyPath → String
  | .scalar s => s
  | .fields l => String.intercalate "," l

/-- JS string coercion of `oldKeyPath`, whose absent value is `null`. -/
def oldKeyPathString : Option KeyPath → String
  | none => "null"
  | some k => keyPathValueToString k

/-- JS string coercion of `newKeyPath`, whose absent value is
`undefined`. -/
def newKeyPathString : Option KeyPath → String
  | none => "undefined"
  | some k => keyPathValueToString k

/-- One line of the dangerous-change enumeration (the `switch` inside the
error construction, identical in `determineAutoVersion` and in the
explicit branch of `initializeDatabase`). -/
def describeDangerousChange : SchemaChangeType → String
  | .store_delete storeName =>
      "Store \"" ++ storeName
        ++ "\" would be deleted. Use removedStoreStrategy: 'preserve' to backup, or add a migration to explicitly delete it."
  | .keypath_change storeName oldKeyPath newKeyPath =>
      "Store \"" ++ storeName ++ "\" keyPath changed from \""
        ++ oldKeyPathString oldKeyPath ++ "\" to \"" ++ newKeyPathString newKeyPath
        ++ "\". This requires recreating the store with a manual migration."
  | _ => "Unknown dangerous change"

/-- `Array.prototype.join` with a newline separator. -/
def joinLines : List String → String
  | [] => ""
  | [line] => line
  | line :: rest => line ++ "\n" ++ joinLines rest

/-- The error message thrown when dangerous changes remain after the
removed-store policy is applied. -/
def dangerousChangesMessage (dangerous : List SchemaChangeType) : String :=
  "Dangerous schema changes detected:\n"
    ++ joinLines (dangerous.map describeDangerousChange)
    ++ "\n\nAdd explicit migrations to handle these changes safely."

/-- One line of the deferred-change warning of the explicit branch of
`initializeDatabase`. -/
def describeDeferredChange : SchemaChangeType → String
  | .store_add storeName => "- Add store \"" ++ storeName ++ "\""
  | .store_rename oldName newName =>
      "- Rename store \"" ++ oldName ++ "\" to \"" ++ newName ++ "\""
  | .index_add storeName indexName _ =>
      "- Add index \"" ++ indexName ++ "\" on \"" ++ storeName ++ "\""
  | .index_delete storeName indexName =>
      "- Delete index \"" ++ indexName ++ "\" from \"" ++ storeName ++ "\""
  | _ => "- Schema change"

/-- The `console.warn` message emitted when safe changes are detected but
the explicit version was not bumped. -/
def deferredChangesWarning (safe : List SchemaChangeType)
    (currentVersion providedVersion : Nat) : String :=
  "[schema-idb] Schema changes detected but version not bumped:\n"
    ++ joinLines (safe.map describeDeferredChange)
    ++ "\nCurrent DB version: " ++ toString currentVersion
    ++ ", Provided version: " ++ toString providedVersion
    ++ "\nBump the version to apply these changes."

/-- Outcome of invoking a migration body with the live database handle
and the active upgrade transaction: it returns normally, throws
synchronously, or returns a promise that later rejects. -/
inductive MigrationOutcome where
  | success
  | syncThrow (err : String)
  | asyncReject (err : String)
deriving DecidableEq

/-- A named migration (`Migration` in types.js, reconstructed from its
uses): the executable body is abstracted by its outcome. -/
structure Migration where
  name : String
  up : MigrationOutcome
deriving DecidableEq

/-- A static store definition as consumed by `openDB`: name, keyPath,
index declarations and the migrations declared on the store. -/
structure StoreDef where
  name : String
  keyPath : Option KeyPath
  indexes : List IndexDefinition
  migrations : List Migration
deriving DecidableEq

/-- The persisted state of a database as observable between opens: the
version, the physical stores (internal ones included) and the ledger of
applied migration names held by the reserved history store. -/
structure DbSnapshot where
  version : Nat
  stores : List ExistingStoreSchema
  ledger : List String
deriving DecidableEq

/-- `readExistingSchema`: the existing-schema snapshot excludes internal
stores (the ledger store and backup stores). -/
def readExistingSchema (db : DbSnapshot) : List ExistingStoreSchema :=
  db.stores.filter fun s => !isInternalStore s.name

/-- `toDesiredSchema` from schemaDetection. -/
def toDesiredSchema (stores : List StoreDef) : List DesiredStoreSchema :=
  stores.map fun s => ⟨s.name, s.keyPath, s.indexes⟩

/-- Modelled from the spec: `getAppliedMigrations` (migrationHistory.js
is not among the sources) reads the applied migration names from the
ledger store of an established connection. -/
def getAppliedMigrations (db : DbSnapshot) : List String :=
  db.ledger

/-- The result record of `determineAutoVersion`. -/
structure AutoVersionResult where
  version : Nat
  changes : Option SchemaChanges
  needsUpgrade : Bool
deriving DecidableEq

/-- `determineAutoVersion` from schemaDetection.  The throwaway
schema-read connection is modelled by the optional snapshot argument,
`none` when the database does not exist. -/
def determineAutoVersion (existingDb : Option DbSnapshot) (stores : List StoreDef)
    (removedStoreStrategy : RemovedStoreStrategy) : Except String AutoVersionResult :=
  match existingDb with
  | none => .ok ⟨1, none, true⟩
  | some db =>
    let currentVersion := db.version
    let changes := detectSchemaChanges (readExistingSchema db) (toDesiredSchema stores)
    if !changes.hasChanges then
      .ok ⟨currentVersion, none, false⟩
    else
      let rewritten := applyRemovedStorePolicy removedStoreStrategy currentVersion changes
      if rewritten.dangerous.length > 0 then
        .error (dangerousChangesMessage rewritten.dangerous)
      else
        .ok ⟨currentVersion + 1, some rewritten, true⟩

/-- Lexicographic less-or-equal on collation-key sequences. -/
def natListLe : List Nat → List Nat → Bool
  | [], _ => true
  | _ :: _, [] => false
  | a :: as, b :: bs =>
    if a < b then true
    else if b < a then false
    else natListLe as bs

theorem natListLe_total : ∀ x y : List Nat,
    natListLe x y = true ∨ natListLe y x = true := by
  intro x
  induction x with
  | nil => intro y; exact Or.inl rfl
  | cons a as ih =>
    intro y
    cases y with
    | nil => exact Or.inr rfl
    | cons b bs =>
      rcases lt_trichotomy a b with hab | hab | hab
      · exact Or.inl (by simp [natListLe, hab])
      · subst hab
        rcases ih bs with h | h
        · exact Or.inl (by simp [natListLe, h])
        · exact Or.inr (by simp [natListLe, h])
      · exact Or.inr (by simp [natListLe, hab])

theorem natListLe_trans : ∀ x y z : List Nat,
    natListLe x y = true → natListLe y z = true → natListLe x z = true := by
  intro x
  induction x with
  | nil => intro y z _ _; rfl
  | cons a as ih =>
    intro y z hxy hyz
    cases y with
    | nil => simp [natListLe] at hxy
    | cons b bs =>
      cases z with
      | nil => simp [natListLe] at hyz
      | cons c cs =>
        rcases lt_trichotomy a b with hab | hab | hab
        · rcases lt_trichotomy b c with hbc | hbc | hbc
          · simp [natListLe, lt_trans hab hbc]
          · subst hbc; simp [natListLe, hab]
          · simp [natListLe, hbc, lt_asymm hbc] at hyz
        · subst hab
          rcases lt_trichotomy a c with hac | hac | hac
          · simp [natListLe, hac]
          · subst hac
            simp [natListLe, lt_irrefl] at hxy hyz ⊢
            exact ih _ _ hxy hyz
          · simp [natListLe, hac, lt_asymm hac] at hyz
        · simp [natListLe, hab, lt_asymm hab] at hxy

theorem natListLe_antisymm : ∀ x y : List Nat,
    natListLe x y = true → natListLe y x = true → x = y := by
  intro x
  induction x with
  | nil =>
    intro y _ hyx
    cases y with
    | nil => rfl
    | cons b bs => simp [natListLe] at hyx
  | cons a as ih =>
    intro y hxy hyx
    cases y with
    | nil => simp [natListLe] at hxy
    | cons b bs =>
      rcases lt_trichotomy a b with hab | hab | hab
      · simp [natListLe, hab, lt_asymm hab] at hyx
      · subst hab
        simp [natListLe, lt_irrefl] at hxy hyx
        rw [ih bs hxy hyx]
      · simp [natListLe, hab, lt_asymm hab] at hxy

/-- The code points of a string. -/
def codePoints (s : String) : List Nat :=
  s.data.map Char.toNat

/-- The lexicographic-by-code-point ordering of migration names that the
spec asserts for execution ("the lexicographic ordering of names").
Stated from the spec words, to be compared with the order the source
actually sorts by (`byNameLocaleLe` below). -/
def byNameLexLe (a b : Migration) : Prop :=
  natListLe (codePoints a.name) (codePoints b.name) = true

instance : DecidableRel byNameLexLe := fun a b =>
  inferInstanceAs (Decidable (natListLe (codePoints a.name) (codePoints b.name) = true))

/-- The primary (case-insensitive) collation key of a character: ASCII
uppercase letters fold onto their lowercase counterparts. -/
def primaryKey (c : Char) : Nat :=
  if 65 ≤ c.toNat ∧ c.toNat ≤ 90 then c.toNat + 32 else c.toNat

/-- The case-level collation key of a character: lowercase and caseless
characters order before uppercase ones when the primary keys tie. -/
def caseKey (c : Char) : Nat :=
  if 65 ≤ c.toNat ∧ c.toNat ≤ 90 then 1 else 0

/-- The primary collation keys of a string. -/
def primaryKeys (s : String) : List Nat :=
  s.data.map primaryKey

/-- The case-level collation keys of a string. -/
def caseKeys (s : String) : List Nat :=
  s.data.map caseKey

/-- The comparator the source passes to its sorts is
`a.name.localeCompare(b.name)`: default-locale collation supplied by the
host, an external collaborator like the storage engine.  Modelled here
for the ASCII repertoire after the ECMA-402 default collation: the
primary level compares names with letter case folded away; when the
primary keys tie, the case level (lowercase before uppercase) decides;
names equal on both levels are identical strings.  For names of uniform
case this coincides with code-point lexicographic order; for mixed case
it does not (e.g. "alpha" collates before "Beta"). -/
def localeLe (a b : String) : Bool :=
  if primaryKeys a = primaryKeys b then natListLe (caseKeys a) (caseKeys b)
  else natListLe (primaryKeys a) (primaryKeys b)

theorem char_eq_of_keys {c d : Char} (hp : primaryKey c = primaryKey d)
    (hc : caseKey c = caseKey d) : c = d := by
  have htoNat : c.toNat = d.toNat := by
    unfold primaryKey at hp
    unfold caseKey at hc
    by_cases h1 : 65 ≤ c.toNat ∧ c.toNat ≤ 90
    · by_cases h2 : 65 ≤ d.toNat ∧ d.toNat ≤ 90
      · rw [if_pos h1, if_pos h2] at hp
        omega
      · rw [if_pos h1, if_neg h2] at hc
        omega
    · by_cases h2 : 65 ≤ d.toNat ∧ d.toNat ≤ 90
      · rw [if_neg h1, if_pos h2] at hc
        omega
      · rw [if_neg h1, if_neg h2] at hp
        exact hp
  have h1 : Char.ofNat c.toNat = Char.ofNat d.toNat := congrArg Char.ofNat htoNat
  rwa [Char.ofNat_toNat, Char.ofNat_toNat] at h1

theorem data_eq_of_keys : ∀ {x y : List Char},
    x.map primaryKey = y.map primaryKey → x.map caseKey = y.map caseKey → x = y := by
  intro x
  induction x with
  | nil =>
    intro y hp _
    cases y with
    | nil => rfl
    | cons b bs => simp at hp
  | cons a as ih =>
    intro y hp hc
    cases y with
    | nil => simp at hp
    | cons b bs =>
      simp only [List.map_cons, List.cons.injEq] at hp hc
      rw [char_eq_of_keys hp.1 hc.1, ih hp.2 hc.2]

theorem localeLe_total (a b : String) :
    localeLe a b = true ∨ localeLe b a = true := by
  unfold localeLe
  by_cases h : primaryKeys a = primaryKeys b
  · rw [if_pos h, if_pos h.symm]
    exact natListLe_total _ _
  · rw [if_neg h, if_neg fun hh => h hh.symm]
    exact natListLe_total _ _

theorem localeLe_trans {a b c : String} (hab : localeLe a b = true)
    (hbc : localeLe b c = true) : localeLe a c = true := by
  unfold localeLe at hab hbc ⊢
  by_cases h1 : primaryKeys a = primaryKeys b
  · by_cases h2 : primaryKeys b = primaryKeys c
    · rw [if_pos h1] at hab
      rw [if_pos h2] at hbc
      rw [if_pos (h1.trans h2)]
      exact natListLe_trans _ _ _ hab hbc
    · rw [if_neg h2] at hbc
      have hac : ¬ primaryKeys a = primaryKeys c := fun hh => h2 (h1.symm.trans hh)
      rw [if_neg hac, h1]
      exact hbc
  · by_cases h2 : primaryKeys b = primaryKeys c
    · rw [if_neg h1] at hab
      have hac : ¬ primaryKeys a = primaryKeys c := fun hh => h1 (hh.trans h2.symm)
      rw [if_neg hac, ← h2]
      exact hab
    · rw [if_neg h1] at hab
      rw [if_neg h2] at hbc
      by_cases hac : primaryKeys a = primaryKeys c
      · exfalso
        rw [hac] at hab
        exact h2 (natListLe_antisymm _ _ hbc hab)
      · rw [if_neg hac]
        exact natListLe_trans _ _ _ hab hbc

theorem localeLe_antisymm {a b : String} (hab : localeLe a b = true)
    (hba : localeLe b a = true) : a = b := by
  unfold localeLe at hab hba
  by_cases h : primaryKeys a = primaryKeys b
  · rw [if_pos h] at hab
    rw [if_pos h.symm] at hba
    have hck : caseKeys a = caseKeys b := natListLe_antisymm _ _ hab hba
    exact String.ext (data_eq_of_keys h hck)
  · rw [if_neg h] at hab
    rw [if_neg fun hh => h hh.symm] at hba
    exact absurd (natListLe_antisymm _ _ hab hba) h

/-- The by-name order the source actually sorts with: the `localeCompare`
comparator on migration names passed to `Array.prototype.sort` in
`collectMigrations` and `filterPendingMigrations`. -/
def byNameLocaleLe (a b : Migration) : Prop :=
  localeLe a.name b.name = true

instance : DecidableRel byNameLocaleLe := fun a b =>
  inferInstanceAs (Decidable (localeLe a.name b.name = true))

instance : IsTotal Migration byNameLocaleLe :=
  ⟨fun a b => localeLe_total a.name b.name⟩

instance : IsTrans Migration byNameLocaleLe :=
  ⟨fun _ _ _ h1 h2 => localeLe_trans h1 h2⟩

theorem byNameLocaleLe_antisymm_names {a b : Migration}
    (h1 : byNameLocaleLe a b) (h2 : byNameLocaleLe b a) : a.name = b.name :=
  localeLe_antisymm h1 h2

/-- The stable by-name sort of the migration lists with the modelled
`localeCompare` comparator (the TS `Array.prototype.sort` is a stable
comparison sort; insertion sort is a faithful model). -/
def sortByName (l : List Migration) : List Migration :=
  List.insertionSort byNameLocaleLe l

/-- The flattening of all migrations declared across all stores, in
declaration order. -/
def allMigrationsOf (stores : List StoreDef) : List Migration :=
  stores.flatMap StoreDef.migrations

/-- The duplicate-name scan of `collectMigrations`: the first migration
name already seen, if any. -/
def firstDuplicateName : List Migration → List String → Option String
  | [], _ => none
  | m :: rest, seen =>
    if seen.contains m.name then some m.name
    else firstDuplicateName rest (m.name :: seen)

/-- `collectMigrations` from createSchemaDB: fails on a duplicate
migration name across stores, otherwise returns every declared migration
sorted by name. -/
def collectMigrations (stores : List StoreDef) : Except String (List Migration) :=
  match firstDuplicateName (allMigrationsOf stores) [] with
  | some n => .error ("Duplicate migration name \"" ++ n ++ "\" found across stores")
  | none => .ok (sortByName (allMigrationsOf stores))

/-- `filterPendingMigrations` from createSchemaDB: the registered
migrations whose names are not in the applied list, sorted by name. -/
def filterPendingMigrations (allMigrations : List Migration)
    (appliedMigrations : List String) : List Migration :=
  sortByName (allMigrations.filter fun m => !appliedMigrations.contains m.name)

/-- The data the initialization pipeline hands to the version-requesting
open: target version, safe changes for the upgrade callback, applied
migration names, pending migrations, and the deferred-change warning (a
`console.warn` side effect in TS, surfaced here as a value). -/
structure InitPlan where
  version : Nat
  autoChanges : Option SchemaChanges
  appliedMigrations : List String
  pendingMigrations : List Migration
  warning : Option String
deriving DecidableEq

/-- The `versionStrategy = "auto"` branch of `initializeDatabase`:
resolve the version with `determineAutoVersion`, read the ledger only
when the resolved version exceeds 1, and bump the version once more when
pending migrations exist without a schema-change upgrade. -/
def initializeAuto (existingDb : Option DbSnapshot) (stores : List StoreDef)
    (allMigrations : List Migration)
    (removedStoreStrategy : RemovedStoreStrategy) : Except String InitPlan :=
  match determineAutoVersion existingDb stores removedStoreStrategy with
  | .error e => .error e
  | .ok autoResult =>
    let appliedMigrations :=
      if autoResult.version > 1 then
        match existingDb with
        | some db => getAppliedMigrations db
        | none => []
      else []
    let pendingCheck := filterPendingMigrations allMigrations appliedMigrations
    let version :=
      if pendingCheck.length > 0 && !autoResult.needsUpgrade then autoResult.version + 1
      else autoResult.version
    .ok ⟨version, autoResult.changes, appliedMigrations,
      filterPendingMigrations allMigrations appliedMigrations, none⟩

/-- The `versionStrategy = "explicit"` branch of `initializeDatabase`:
the version is required; when a database already exists its schema is
validated, the removed-store policy applied, remaining dangerous changes
abort, and safe changes at a non-increased version only produce a
warning. -/
def initializeExplicit (existingDb : Option DbSnapshot) (explicitVersion : Option Nat)
    (stores : List StoreDef) (allMigrations : List Migration)
    (removedStoreStrategy : RemovedStoreStrategy) : Except String InitPlan :=
  match explicitVersion with
  | none => .error "Version is required when versionStrategy is \"explicit\""
  | some version =>
    match existingDb with
    | none => .ok ⟨version, none, [], filterPendingMigrations allMigrations [], none⟩
    | some db =>
      let currentVersion := db.version
      let appliedMigrations := getAppliedMigrations db
      let changes := detectSchemaChanges (readExistingSchema db) (toDesiredSchema stores)
      if changes.hasChanges then
        let rewritten := applyRemovedStorePolicy removedStoreStrategy currentVersion changes
        if rewritten.dangerous.length > 0 then
          .error (dangerousChangesMessage rewritten.dangerous)
        else
          let warning :=
            if version ≤ currentVersion then
              some (deferredChangesWarning rewritten.safe currentVersion version)
            else none
          .ok ⟨version, some rewritten, appliedMigrations,
            filterPendingMigrations allMigrations appliedMigrations, warning⟩
      else
        .ok ⟨version, none, appliedMigrations,
          filterPendingMigrations allMigrations appliedMigrations, none⟩

/-- Events observable inside the upgrade transaction while the migration
loop runs: a migration body is invoked, or a ledger record is written. -/
inductive MigEvent where
  | run (name : String)
  | record (name : String)
deriving DecidableEq

/-- The transaction-local effect of the migration loop of
`handleUpgrade`: the ledger writes issued so far and whether `tx.abort()`
has been requested. -/
structure TxEffect where
  ledgerWrites : List String
  abortRequested : Bool
deriving DecidableEq

/-- The migration loop of `handleUpgrade`.  A successful body has its
name recorded in the ledger within the same transaction before the next
migration starts; a synchronous throw calls `tx.abort()` and rethrows,
stopping the loop; a rejected promise schedules `tx.abort()` through its
`catch` handler while the loop still records the name and continues (the
abort later rolls the whole transaction back).  Returns the transaction
effect, the event trace, and the synchronously thrown error if any. -/
def runMigrations : List Migration → TxEffect → TxEffect × List MigEvent × Option String
  | [], eff => (eff, [], none)
  | m :: rest, eff =>
    match m.up with
    | .success =>
      let next := runMigrations rest
        { eff with ledgerWrites := eff.ledgerWrites ++ [m.name] }
      (next.1, .run m.name :: .record m.name :: next.2.1, next.2.2)
    | .syncThrow err =>
      ({ eff with abortRequested := true }, [.run m.name], some err)
    | .asyncReject _ =>
      let next := runMigrations rest
        { eff with ledgerWrites := eff.ledgerWrites ++ [m.name], abortRequested := true }
      (next.1, .run m.name :: .record m.name :: next.2.1, next.2.2)

/-- The outcome of a version-requesting open: whether a ready connection
was produced, and the persisted database state after the attempt. -/
structure OpenResult where
  connected : Bool
  state : DbSnapshot
deriving DecidableEq

/-- Modelled from the spec: the hosting engine (`openDatabase` lives in
utils.js, not among the sources) serializes opens, grants exactly one
upgrade transaction and only on a version increase; an aborted upgrade
transaction rolls every one of its writes back, leaving the persisted
state untouched, and the open fails; a request below the persisted
version fails without an upgrade; a request at the persisted version
connects without an upgrade. -/
def engineOpen (db : DbSnapshot) (requestedVersion : Nat)
    (upgrade : DbSnapshot → DbSnapshot × Bool) : OpenResult :=
  if requestedVersion < db.version then ⟨false, db⟩
  else if requestedVersion = db.version then ⟨true, db⟩
  else
    let result := upgrade db
    if result.2 then ⟨false, db⟩
    else ⟨true, { result.1 with version := requestedVersion }⟩

/-- The persisted effect of the migration loop of `handleUpgrade` inside
the upgrade transaction: on commit the ledger writes are appended to the
ledger; the second component reports whether the transaction was
aborted. -/
def migrationUpgrade (pending : List Migration) (db : DbSnapshot) : DbSnapshot × Bool :=
  let outcome := runMigrations pending ⟨[], false⟩
  ({ db with ledger := db.ledger ++ outcome.1.ledgerWrites }, outcome.1.abortRequested)

/-- The only value `TransactionOptions.mode` admits in transaction.ts is
the literal string `write`; the field is optional. -/
inductive TxMode where
  | write
deriving DecidableEq

/-- The transaction modes of the hosting engine. -/
inductive IDBTransactionMode where
  | readonly
  | readwrite
  | versionchange
deriving DecidableEq

/-- The durability choices of `TransactionOptions`. -/
inductive Durability where
  | defaultMode
  | strict
  | relaxed
deriving DecidableEq

/-- `TransactionOptions` from transaction.ts. -/
structure TransactionOptions where
  mode : Option TxMode
  durability : Option Durability
deriving DecidableEq

/-- The mode computation of `startTransaction` in transaction.ts:
`const idbMode = mode === 'write' ? 'readwrite' : 'readwrite'`. -/
def startTransactionMode (options : TransactionOptions) : IDBTransactionMode :=
  match options.mode with
  | some .write => .readwrite
  | none => .readwrite

theorem flatMap_infix_of_mem {α β : Type} (f : α → List β) {a : α} {l : List α}
    (h : a ∈ l) : f a <:+: l.flatMap f := by
  induction l with
  | nil => cases h
  | cons hd tl ih =>
    rw [List.flatMap_cons]
    rcases List.mem_cons.mp h with rfl | hmem
    · exact ((List.prefix_append (f a) (tl.flatMap f))).isInfix
    · obtain ⟨s, t, hst⟩ := ih hmem
      exact ⟨f hd ++ s, t, by rw [← hst]; simp [List.append_assoc]⟩

theorem storeSafeChanges_storeName {existing : List ExistingStoreSchema}
    {d : DesiredStoreSchema} {c : SchemaChangeType} {s : String}
    (hc : c ∈ storeSafeChanges existing d)
    (hix : isIndexChangeFor s c = true) : d.name = s := by
  unfold storeSafeChanges at hc
  cases hfind : existing.find? fun e => e.name == d.name with
  | none =>
    rw [hfind] at hc
    simp at hc
    subst hc
    simp [isIndexChangeFor] at hix
  | some e =>
    rw [hfind] at hc
    by_cases hkp : (!keyPathEquals e.keyPath d.keyPath) = true
    · simp [hkp] at hc
    · simp only [Bool.not_eq_true] at hkp
      simp only [hkp, Bool.not_false, if_true] at hc
      rcases List.mem_append.mp hc with hin | hdel
      · obtain ⟨ix, _, hmem⟩ := List.mem_flatMap.mp hin
        unfold diffDesiredIndex at hmem
        cases hlook : e.indexes.lookup ix.name with
        | none =>
          rw [hlook] at hmem
          simp at hmem
          subst hmem
          simpa [isIndexChangeFor] using hix
        | some eix =>
          rw [hlook] at hmem
          simp only at hmem
          by_cases hcond : (!keyPathEquals (some eix.keyPath) (some ix.keyPath)
              || (eix.unique != ix.unique.getD false)
              || (eix.multiEntry != ix.multiEntry.getD false)) = true
          · simp only [hcond, if_true] at hmem
            rcases List.mem_cons.mp hmem with rfl | hmem2
            · simpa [isIndexChangeFor] using hix
            · simp at hmem2
              subst hmem2
              simpa [isIndexChangeFor] using hix
          · simp only [Bool.not_eq_true] at hcond
            simp [hcond] at hmem
      · unfold deletedIndexChanges at hdel
        obtain ⟨n, _, hsome⟩ := List.mem_filterMap.mp hdel
        by_cases hany : (d.indexes.any fun i => i.name == n) = true
        · simp [hany] at hsome
        · simp only [Bool.not_eq_true] at hany
          simp only [hany, Bool.false_eq_true, if_false, Option.some_inj] at hsome
          subst hsome
          simpa [isIndexChangeFor] using hix

theorem dangerous_not_indexChange {existing : List ExistingStoreSchema}
    {desired : List DesiredStoreSchema} {c : SchemaChangeType} {s : String}
    (hc : c ∈ (detectSchemaChanges existing desired).dangerous) :
    isIndexChangeFor s c = false := by
  simp only [detectSchemaChanges] at hc
  rcases List.mem_append.mp hc with hin | hdel
  · obtain ⟨d, _, hmem⟩ := List.mem_flatMap.mp hin
    unfold storeDangerousChanges at hmem
    cases hfind : existing.find? fun e => e.name == d.name with
    | none => rw [hfind] at hmem; cases hmem
    | some e =>
      rw [hfind] at hmem
      by_cases hkp : (!keyPathEquals e.keyPath d.keyPath) = true
      · simp only [hkp, if_true] at hmem
        simp at hmem
        subst hmem
        simp [isIndexChangeFor]
      · simp only [Bool.not_eq_true] at hkp
        simp [hkp] at hmem
  · unfold deletedStoreChanges at hdel
    obtain ⟨e, _, hsome⟩ := List.mem_filterMap.mp hdel
    by_cases hany : (desired.any fun d => d.name == e.name) = true
    · simp [hany] at hsome
    · simp only [Bool.not_eq_true] at hany
      simp only [hany, Bool.false_eq_true, if_false, Option.some_inj] at hsome
      subst hsome
      simp [isIndexChangeFor]

/-- C7: in `diff(existing, desired)`, for every store present in both
schemas with equal keyPath and every index name present in both whose
keyPath, unique flag or multiEntry flag differs, the safe change list
contains `index_delete` immediately followed by `index_add` for that same
index name (so both are classified safe and the delete is ordered before
the add). -/
theorem c7_index_replace_delete_then_add
    (existing : List ExistingStoreSchema) (desired : List DesiredStoreSchema)
    (d : DesiredStoreSchema) (e : ExistingStoreSchema)
    (ix : IndexDefinition) (eix : ExistingIndex)
    (hd : d ∈ desired)
    (he : existing.find? (fun s => s.name == d.name) = some e)
    (hkp : keyPathEquals e.keyPath d.keyPath = true)
    (hix : ix ∈ d.indexes)
    (heix : e.indexes.lookup ix.name = some eix)
    (hdiff : keyPathEquals (some eix.keyPath) (some ix.keyPath) = false
        ∨ eix.unique ≠ ix.unique.getD false
        ∨ eix.multiEntry ≠ ix.multiEntry.getD false) :
    [SchemaChangeType.index_delete d.name ix.name,
     SchemaChangeType.index_add d.name ix.name ix]
      <:+: (detectSchemaChanges existing desired).safe := by
  have hchunk : diffDesiredIndex d.name e ix =
      [SchemaChangeType.index_delete d.name ix.name,
       SchemaChangeType.index_add d.name ix.name ix] := by
    unfold diffDesiredIndex
    rw [heix]
    simp only
    have hcond : (!keyPathEquals (some eix.keyPath) (some ix.keyPath)
        || (eix.unique != ix.unique.getD false)
        || (eix.multiEntry != ix.multiEntry.getD false)) = true := by
      rcases hdiff with h | h | h
      · simp [h]
      · simp [bne_iff_ne, h]
      · simp [bne_iff_ne, h]
    rw [hcond]
    simp
  have h1 : diffDesiredIndex d.name e ix <:+:
      d.indexes.flatMap (diffDesiredIndex d.name e) :=
    flatMap_infix_of_mem _ hix
  have h2 : d.indexes.flatMap (diffDesiredIndex d.name e) <:+:
      storeSafeChanges existing d := by
    unfold storeSafeChanges
    rw [he]
    simp only [hkp, Bool.not_true, Bool.false_eq_true, if_false]
    exact (List.prefix_append _ _).isInfix
  have h3 : storeSafeChanges existing d <:+:
      (detectSchemaChanges existing desired).safe := by
    simp only [detectSchemaChanges]
    exact flatMap_infix_of_mem _ hd
  rw [← hchunk]
  exact (h1.trans h2).trans h3

theorem c7_witness :
    [SchemaChangeType.index_delete "users" "byEmail",
     SchemaChangeType.index_add "users" "byEmail"
       ⟨"byEmail", .scalar "email", some true, none⟩]
      <:+: (detectSchemaChanges
        [⟨"users", some (.scalar "id"),
          [("byEmail", ⟨.scalar "email", false, false⟩)]⟩]
        [⟨"users", some (.scalar "id"),
          [⟨"byEmail", .scalar "email", some true, none⟩]⟩]).safe :=
  c7_index_replace_delete_then_add
    [⟨"users", some (.scalar "id"), [("byEmail", ⟨.scalar "email", false, false⟩)]⟩]
    [⟨"users", some (.scalar "id"), [⟨"byEmail", .scalar "email", some true, none⟩]⟩]
    ⟨"users", some (.scalar "id"), [⟨"byEmail", .scalar "email", some true, none⟩]⟩
    ⟨"users", some (.scalar "id"), [("byEmail", ⟨.scalar "email", false, false⟩)]⟩
    ⟨"byEmail", .scalar "email", some true, none⟩
    ⟨.scalar "email", false, false⟩
    (by decide) (by decide) (by decide) (by decide) (by decide)
    (Or.inr (Or.inl (by decide)))

/-- C8: in `diff(existing, desired)`, for every store present in both
schemas whose keyPath differs under the deep comparison, the result
contains a dangerous `keypath_change` recording the old and the new
keyPath, and no index change (`index_add`, `index_delete` or
`index_modify`) is emitted for that store in either list. -/
theorem c8_keypath_change_skips_indexes
    (existing : List ExistingStoreSchema) (desired : List DesiredStoreSchema)
    (d : DesiredStoreSchema) (e : ExistingStoreSchema)
    (hd : d ∈ desired)
    (hnodup : (desired.map DesiredStoreSchema.name).Nodup)
    (he : existing.find? (fun s => s.name == d.name) = some e)
    (hkp : keyPathEquals e.keyPath d.keyPath = false) :
    SchemaChangeType.keypath_change d.name e.keyPath d.keyPath
        ∈ (detectSchemaChanges existing desired).dangerous
      ∧ ∀ c ∈ (detectSchemaChanges existing desired).safe
          ++ (detectSchemaChanges existing desired).dangerous,
          isIndexChangeFor d.name c = false := by
  constructor
  · simp only [detectSchemaChanges]
    apply List.mem_append_left
    apply List.mem_flatMap.mpr
    refine ⟨d, hd, ?_⟩
    unfold storeDangerousChanges
    rw [he]
    simp [hkp]
  · intro c hc
    rcases List.mem_append.mp hc with hsafe | hdang
    · by_contra hix
      simp only [Bool.not_eq_false] at hix
      simp only [detectSchemaChanges] at hsafe
      obtain ⟨d', hd', hmem⟩ := List.mem_flatMap.mp hsafe
      have hname : d'.name = d.name := storeSafeChanges_storeName hmem hix
      have : d' = d :=
        List.inj_on_of_nodup_map hnodup hd' hd hname
      subst this
      rw [storeSafeChanges, he] at hmem
      simp [hkp] at hmem
    · exact dangerous_not_indexChange hdang

theorem c8_witness :
    SchemaChangeType.keypath_change "users" (some (.scalar "id"))
        (some (.scalar "uid"))
        ∈ (detectSchemaChanges
          [⟨"users", some (.scalar "id"),
            [("byEmail", ⟨.scalar "email", false, false⟩)]⟩]
          [⟨"users", some (.scalar "uid"),
            [⟨"byEmail", .scalar "email", none, none⟩]⟩]).dangerous
      ∧ ∀ c ∈ (detectSchemaChanges
          [⟨"users", some (.scalar "id"),
            [("byEmail", ⟨.scalar "email", false, false⟩)]⟩]
          [⟨"users", some (.scalar "uid"),
            [⟨"byEmail", .scalar "email", none, none⟩]⟩]).safe
          ++ (detectSchemaChanges
          [⟨"users", some (.scalar "id"),
            [("byEmail", ⟨.scalar "email", false, false⟩)]⟩]
          [⟨"users", some (.scalar "uid"),
            [⟨"byEmail", .scalar "email", none, none⟩]⟩]).dangerous,
          isIndexChangeFor "users" c = false :=
  c8_keypath_change_skips_indexes
    [⟨"users", some (.scalar "id"), [("byEmail", ⟨.scalar "email", false, false⟩)]⟩]
    [⟨"users", some (.scalar "uid"), [⟨"byEmail", .scalar "email", none, none⟩]⟩]
    ⟨"users", some (.scalar "uid"), [⟨"byEmail", .scalar "email", none, none⟩]⟩
    ⟨"users", some (.scalar "id"), [("byEmail", ⟨.scalar "email", false, false⟩)]⟩
    (by decide) (by decide) (by decide) (by decide)

/-- C10: every transaction created by `startTransaction` resolves to the
readwrite IDB mode whatever `options.mode` holds (omitted or the literal
`write`); no read-only transaction can be obtained through it. -/
theorem c10_startTransaction_always_readwrite :
    ∀ options : TransactionOptions,
      startTransactionMode options = .readwrite
        ∧ startTransactionMode options ≠ .readonly := by
  intro options
  have h1 : startTransactionMode options = .readwrite := by
    unfold startTransactionMode
    cases hm : options.mode with
    | none => rfl
    | some m => cases m; rfl
  refine ⟨h1, ?_⟩
  rw [h1]
  intro hc
  exact IDBTransactionMode.noConfusion hc

theorem c10_witness :
    startTransactionMode ⟨some .write, none⟩ = .readwrite
      ∧ startTransactionMode ⟨some .write, none⟩ ≠ .readonly :=
  c10_startTransaction_always_readwrite ⟨some .write, none⟩

theorem runMigrations_abort_mono (ms : List Migration) (eff : TxEffect)
    (h : eff.abortRequested = true) :
    (runMigrations ms eff).1.abortRequested = true := by
  induction ms generalizing eff with
  | nil => exact h
  | cons m rest ih =>
    unfold runMigrations
    cases m.up with
    | success => exact ih _ h
    | syncThrow err => rfl
    | asyncReject err => exact ih _ rfl

theorem runMigrations_fail_aborts (ms : List Migration) (eff : TxEffect)
    (m : Migration) (hm : m ∈ ms) (hf : m.up ≠ .success) :
    (runMigrations ms eff).1.abortRequested = true := by
  induction ms generalizing eff with
  | nil => cases hm
  | cons hd rest ih =>
    unfold runMigrations
    cases hup : hd.up with
    | success =>
      rcases List.mem_cons.mp hm with rfl | hmem
      · exact absurd hup hf
      · exact ih _ hmem
    | syncThrow err => rfl
    | asyncReject err => exact runMigrations_abort_mono _ _ rfl

/-- C1: when any pending migration fails during an upgrade attempt (its
body throws synchronously or the promise it returns rejects), the whole
upgrade transaction is aborted, the open fails, and the persisted state —
including every ledger entry recorded for migrations that succeeded
earlier in the same attempt — is rolled back to the pre-upgrade snapshot:
atomicity is per-upgrade-attempt. -/
theorem c1_migration_failure_aborts_open_and_rolls_back
    (db : DbSnapshot) (requestedVersion : Nat) (pending : List Migration)
    (m : Migration) (hm : m ∈ pending) (hfail : m.up ≠ .success)
    (hv : db.version < requestedVersion) :
    engineOpen db requestedVersion (migrationUpgrade pending) = ⟨false, db⟩ := by
  have habort : (migrationUpgrade pending db).2 = true := by
    unfold migrationUpgrade
    exact runMigrations_fail_aborts pending ⟨[], false⟩ m hm hfail
  unfold engineOpen
  rw [if_neg (by omega), if_neg (by omega)]
  simp only [habort, if_true]

theorem c1_witness :
    engineOpen ⟨1, [], []⟩ 2
        (migrationUpgrade [⟨"a", .success⟩, ⟨"b", .syncThrow "boom"⟩])
      = ⟨false, ⟨1, [], []⟩⟩ :=
  c1_migration_failure_aborts_open_and_rolls_back
    ⟨1, [], []⟩ 2 [⟨"a", .success⟩, ⟨"b", .syncThrow "boom"⟩]
    ⟨"b", .syncThrow "boom"⟩ (by decide) (by decide) (by decide)

/-- C3: under the auto strategy, for an existing database where the
schema diff produced no structural change and the migration registry
holds at least one name absent from the applied-migration ledger, the
resolved target version is the current persisted version plus one. -/
theorem c3_auto_pending_migrations_force_bump
    (db : DbSnapshot) (stores : List StoreDef) (allMigrations : List Migration)
    (strategy : RemovedStoreStrategy) (m : Migration)
    (hnochange : (detectSchemaChanges (readExistingSchema db)
        (toDesiredSchema stores)).hasChanges = false)
    (hm : m ∈ allMigrations) (hpending : m.name ∉ db.ledger) :
    ∃ plan, initializeAuto (some db) stores allMigrations strategy = .ok plan
      ∧ plan.version = db.version + 1 := by
  have hdet : determineAutoVersion (some db) stores strategy
      = .ok ⟨db.version, none, false⟩ := by
    unfold determineAutoVersion
    simp [hnochange]
  have hfilter : ∀ applied : List String, m.name ∉ applied →
      0 < (filterPendingMigrations allMigrations applied).length := by
    intro applied hnotin
    have hcont : applied.contains m.name = false := by
      cases hc : applied.contains m.name
      · rfl
      · exact absurd (List.elem_iff.mp hc) hnotin
    have hmem : m ∈ allMigrations.filter fun x => !applied.contains x.name :=
      List.mem_filter.mpr ⟨hm, by simp [hcont, hnotin]⟩
    have hperm := List.perm_insertionSort byNameLocaleLe
      (allMigrations.filter fun x => !applied.contains x.name)
    rw [filterPendingMigrations, sortByName, hperm.length_eq]
    exact List.length_pos.mpr (List.ne_nil_of_mem hmem)
  unfold initializeAuto
  rw [hdet]
  by_cases hv : db.version > 1
  · have hlen := hfilter db.ledger hpending
    simp only [hv, if_true, getAppliedMigrations, Bool.not_false, Bool.and_true,
      decide_eq_true_eq, hlen, if_pos]
    exact ⟨_, rfl, rfl⟩
  · have hlen := hfilter [] (by simp)
    simp only [hv, if_false, Bool.not_false, Bool.and_true,
      decide_eq_true_eq, hlen, if_pos]
    exact ⟨_, rfl, rfl⟩

theorem c3_witness :
    ∃ plan,
      initializeAuto (some ⟨2, [⟨"users", some (.scalar "id"), []⟩], []⟩)
          [⟨"users", some (.scalar "id"), [], [⟨"m1", .success⟩]⟩]
          [⟨"m1", .success⟩] .error
        = .ok plan
      ∧ plan.version = 2 + 1 :=
  c3_auto_pending_migrations_force_bump
    ⟨2, [⟨"users", some (.scalar "id"), []⟩], []⟩
    [⟨"users", some (.scalar "id"), [], [⟨"m1", .success⟩]⟩]
    [⟨"m1", .success⟩] .error ⟨"m1", .success⟩
    (by decide) (by decide) (by decide)

/-- C9, code-bug evidence: resolving under the auto strategy against an
unchanged schema, an existing database at version 1 whose ledger already
records the only registered migration (so the pending set in the sense of
the spec is empty) still gets its version bumped to 2 with the migration
treated as pending again: the `autoResult.version > 1` guard skips
reading the ledger of an existing version-1 database, so resolution is
not idempotent there. -/
theorem c9_auto_rebumps_existing_version_one_database :
    initializeAuto
        (some ⟨1, [⟨"users", some (.scalar "id"), []⟩], ["001-seed"]⟩)
        [⟨"users", some (.scalar "id"), [], [⟨"001-seed", .success⟩]⟩]
        [⟨"001-seed", .success⟩] .error
      = .ok ⟨2, none, [], [⟨"001-seed", .success⟩], none⟩ := by
  rfl

theorem joinLines_cons_cons (x y : String) (ys : List String) :
    joinLines (x :: y :: ys) = x ++ "\n" ++ joinLines (y :: ys) := rfl

theorem joinLines_mem_split {s : String} {parts : List String} (h : s ∈ parts) :
    ∃ pre post, joinLines parts = pre ++ s ++ post := by
  induction parts with
  | nil => cases h
  | cons x rest ih =>
    rcases List.mem_cons.mp h with rfl | hmem
    · cases rest with
      | nil => exact ⟨"", "", by simp [joinLines]⟩
      | cons y ys =>
        exact ⟨"", "\n" ++ joinLines (y :: ys),
          by rw [joinLines_cons_cons]; simp [String.append_assoc]⟩
    · obtain ⟨pre, post, heq⟩ := ih hmem
      cases rest with
      | nil => cases hmem
      | cons y ys =>
        refine ⟨x ++ "\n" ++ pre, post, ?_⟩
        rw [joinLines_cons_cons, heq]
        simp [String.append_assoc]

theorem dangerousChangesMessage_mentions {c : SchemaChangeType}
    {l : List SchemaChangeType} (h : c ∈ l) :
    ∃ pre post,
      dangerousChangesMessage l = pre ++ describeDangerousChange c ++ post := by
  obtain ⟨pre, post, heq⟩ :=
    joinLines_mem_split (List.mem_map_of_mem describeDangerousChange h)
  refine ⟨"Dangerous schema changes detected:\n" ++ pre,
    post ++ "\n\nAdd explicit migrations to handle these changes safely.", ?_⟩
  rw [dangerousChangesMessage, heq]
  simp [String.append_assoc]

theorem deferredChangesWarning_mentions {c : SchemaChangeType}
    {l : List SchemaChangeType} (cur ver : Nat) (h : c ∈ l) :
    ∃ pre post,
      deferredChangesWarning l cur ver = pre ++ describeDeferredChange c ++ post := by
  obtain ⟨pre, post, heq⟩ :=
    joinLines_mem_split (List.mem_map_of_mem describeDeferredChange h)
  refine ⟨"[schema-idb] Schema changes detected but version not bumped:\n" ++ pre,
    post ++ ("\nCurrent DB version: " ++ toString cur
      ++ ", Provided version: " ++ toString ver
      ++ "\nBump the version to apply these changes."), ?_⟩
  rw [deferredChangesWarning, heq]
  simp [String.append_assoc]

theorem policyRewrite_dangerous_sub {p : RemovedStoreStrategy} {v : Nat} :
    ∀ {l : List SchemaChangeType} {c : SchemaChangeType},
      c ∈ (policyRewrite p v l).2 → c ∈ l := by
  intro l
  induction l with
  | nil => intro c hc; cases hc
  | cons hd rest ih =>
    intro c hc
    unfold policyRewrite at hc
    cases hd with
    | store_delete n =>
      cases p with
      | preserve => exact List.mem_cons_of_mem _ (ih hc)
      | error =>
        rcases List.mem_cons.mp hc with rfl | hmem
        · exact List.mem_cons_self _ _
        · exact List.mem_cons_of_mem _ (ih hmem)
    | store_add n =>
      rcases List.mem_cons.mp hc with rfl | hmem
      · exact List.mem_cons_self _ _
      · exact List.mem_cons_of_mem _ (ih hmem)
    | store_rename a b =>
      rcases List.mem_cons.mp hc with rfl | hmem
      · exact List.mem_cons_self _ _
      · exact List.mem_cons_of_mem _ (ih hmem)
    | keypath_change a b k =>
      rcases List.mem_cons.mp hc with rfl | hmem
      · exact List.mem_cons_self _ _
      · exact List.mem_cons_of_mem _ (ih hmem)
    | index_add a b i =>
      rcases List.mem_cons.mp hc with rfl | hmem
      · exact List.mem_cons_self _ _
      · exact List.mem_cons_of_mem _ (ih hmem)
    | index_delete a b =>
      rcases List.mem_cons.mp hc with rfl | hmem
      · exact List.mem_cons_self _ _
      · exact List.mem_cons_of_mem _ (ih hmem)
    | index_modify a b o i =>
      rcases List.mem_cons.mp hc with rfl | hmem
      · exact List.mem_cons_self _ _
      · exact List.mem_cons_of_mem _ (ih hmem)

theorem detect_hasChanges_of_dangerous_ne
    {existing : List ExistingStoreSchema} {desired : List DesiredStoreSchema}
    (h : (detectSchemaChanges existing desired).dangerous ≠ []) :
    (detectSchemaChanges existing desired).hasChanges = true := by
  have hpos : 0 < (detectSchemaChanges existing desired).dangerous.length :=
    List.length_pos.mpr h
  simp only [detectSchemaChanges] at hpos ⊢
  have hx : decide ((desired.flatMap (storeDangerousChanges existing)
      ++ deletedStoreChanges existing desired).length > 0) = true :=
    decide_eq_true hpos
  rw [hx, Bool.or_true]

theorem rewritten_dangerous_hasChanges
    {db : DbSnapshot} {stores : List StoreDef} {strategy : RemovedStoreStrategy}
    (h : (applyRemovedStorePolicy strategy db.version
        (detectSchemaChanges (readExistingSchema db)
          (toDesiredSchema stores))).dangerous ≠ []) :
    (detectSchemaChanges (readExistingSchema db)
      (toDesiredSchema stores)).hasChanges = true := by
  apply detect_hasChanges_of_dangerous_ne
  intro hnil
  apply h
  simp only [applyRemovedStorePolicy, hnil]
  rfl

/-- C6: under both strategies, when dangerous changes remain after the
removed-store policy is applied, initialization fails with
`dangerousChangesMessage`, which enumerates every offending change — the
description of a `store_delete` names the store, and that of a
`keypath_change` names the store with both the old and the new keyPath.
The `.error` outcome means no connection at the new version is ever
attempted: the model reaches the open step only through an `.ok` plan. -/
theorem c6_dangerous_changes_fail_enumerated
    (db : DbSnapshot) (stores : List StoreDef) (allMigrations : List Migration)
    (strategy : RemovedStoreStrategy) (version : Nat)
    (hdang : (applyRemovedStorePolicy strategy db.version
        (detectSchemaChanges (readExistingSchema db)
          (toDesiredSchema stores))).dangerous ≠ []) :
    determineAutoVersion (some db) stores strategy
        = .error (dangerousChangesMessage
            (applyRemovedStorePolicy strategy db.version
              (detectSchemaChanges (readExistingSchema db)
                (toDesiredSchema stores))).dangerous)
      ∧ initializeExplicit (some db) (some version) stores allMigrations strategy
        = .error (dangerousChangesMessage
            (applyRemovedStorePolicy strategy db.version
              (detectSchemaChanges (readExistingSchema db)
                (toDesiredSchema stores))).dangerous)
      ∧ (∀ c ∈ (applyRemovedStorePolicy strategy db.version
            (detectSchemaChanges (readExistingSchema db)
              (toDesiredSchema stores))).dangerous,
          ∃ pre post,
            dangerousChangesMessage
                (applyRemovedStorePolicy strategy db.version
                  (detectSchemaChanges (readExistingSchema db)
                    (toDesiredSchema stores))).dangerous
              = pre ++ describeDangerousChange c ++ post)
      ∧ (∀ storeName, describeDangerousChange (.store_delete storeName)
          = "Store \"" ++ storeName
            ++ "\" would be deleted. Use removedStoreStrategy: 'preserve' to backup, or add a migration to explicitly delete it.")
      ∧ (∀ storeName oldKeyPath newKeyPath,
          describeDangerousChange (.keypath_change storeName oldKeyPath newKeyPath)
          = "Store \"" ++ storeName ++ "\" keyPath changed from \""
            ++ oldKeyPathString oldKeyPath ++ "\" to \"" ++ newKeyPathString newKeyPath
            ++ "\". This requires recreating the store with a manual migration.") := by
  have hhc := rewritten_dangerous_hasChanges hdang
  have hpos : 0 < (applyRemovedStorePolicy strategy db.version
      (detectSchemaChanges (readExistingSchema db)
        (toDesiredSchema stores))).dangerous.length :=
    List.length_pos.mpr hdang
  refine ⟨?_, ?_, ?_, fun _ => rfl, fun _ _ _ => rfl⟩
  · unfold determineAutoVersion
    simp only [hhc, Bool.not_true, Bool.false_eq_true, if_false]
    rw [if_pos hpos]
  · unfold initializeExplicit
    simp only [hhc, if_true]
    rw [if_pos hpos]
  · intro c hc
    exact dangerousChangesMessage_mentions hc

theorem c6_witness :
    determineAutoVersion
        (some ⟨1, [⟨"old", some (.scalar "id"), []⟩], []⟩) [] .error
        = .error (dangerousChangesMessage
            (applyRemovedStorePolicy .error 1
              (detectSchemaChanges
                (readExistingSchema ⟨1, [⟨"old", some (.scalar "id"), []⟩], []⟩)
                (toDesiredSchema []))).dangerous)
      ∧ initializeExplicit
          (some ⟨1, [⟨"old", some (.scalar "id"), []⟩], []⟩) (some 2) [] [] .error
        = .error (dangerousChangesMessage
            (applyRemovedStorePolicy .error 1
              (detectSchemaChanges
                (readExistingSchema ⟨1, [⟨"old", some (.scalar "id"), []⟩], []⟩)
                (toDesiredSchema []))).dangerous)
      ∧ (∀ c ∈ (applyRemovedStorePolicy .error 1
            (detectSchemaChanges
              (readExistingSchema ⟨1, [⟨"old", some (.scalar "id"), []⟩], []⟩)
              (toDesiredSchema []))).dangerous,
          ∃ pre post,
            dangerousChangesMessage
                (applyRemovedStorePolicy .error 1
                  (detectSchemaChanges
                    (readExistingSchema ⟨1, [⟨"old", some (.scalar "id"), []⟩], []⟩)
                    (toDesiredSchema []))).dangerous
              = pre ++ describeDangerousChange c ++ post)
      ∧ (∀ storeName, describeDangerousChange (.store_delete storeName)
          = "Store \"" ++ storeName
            ++ "\" would be deleted. Use removedStoreStrategy: 'preserve' to backup, or add a migration to explicitly delete it.")
      ∧ (∀ storeName oldKeyPath newKeyPath,
          describeDangerousChange (.keypath_change storeName oldKeyPath newKeyPath)
          = "Store \"" ++ storeName ++ "\" keyPath changed from \""
            ++ oldKeyPathString oldKeyPath ++ "\" to \"" ++ newKeyPathString newKeyPath
            ++ "\". This requires recreating the store with a manual migration.") :=
  c6_dangerous_changes_fail_enumerated
    ⟨1, [⟨"old", some (.scalar "id"), []⟩], []⟩ [] [] .error 2 (by decide)

/-- C2: under the explicit strategy, when only safe changes remain after
the removed-store policy and the supplied version is not greater than the
persisted one, initialization still succeeds, returns the supplied
version unchanged, emits a warning listing every deferred change, and the
open proceeds without structural mutation: at a non-increased version the
engine grants no upgrade, so the persisted state is untouched. -/
theorem c2_explicit_safe_changes_deferred
    (db : DbSnapshot) (version : Nat) (stores : List StoreDef)
    (allMigrations : List Migration) (strategy : RemovedStoreStrategy)
    (hchanges : (detectSchemaChanges (readExistingSchema db)
        (toDesiredSchema stores)).hasChanges = true)
    (hsafe : (applyRemovedStorePolicy strategy db.version
        (detectSchemaChanges (readExistingSchema db)
          (toDesiredSchema stores))).dangerous = [])
    (hver : version ≤ db.version) :
    ∃ plan,
      initializeExplicit (some db) (some version) stores allMigrations strategy
          = .ok plan
      ∧ plan.version = version
      ∧ plan.warning = some (deferredChangesWarning
          (applyRemovedStorePolicy strategy db.version
            (detectSchemaChanges (readExistingSchema db)
              (toDesiredSchema stores))).safe
          db.version version)
      ∧ (∀ c ∈ (applyRemovedStorePolicy strategy db.version
            (detectSchemaChanges (readExistingSchema db)
              (toDesiredSchema stores))).safe,
          ∃ pre post,
            deferredChangesWarning
                (applyRemovedStorePolicy strategy db.version
                  (detectSchemaChanges (readExistingSchema db)
                    (toDesiredSchema stores))).safe
                db.version version
              = pre ++ describeDeferredChange c ++ post)
      ∧ (∀ upgrade, (engineOpen db version upgrade).state = db) := by
  have hlen : ¬ ((applyRemovedStorePolicy strategy db.version
      (detectSchemaChanges (readExistingSchema db)
        (toDesiredSchema stores))).dangerous.length > 0) := by
    rw [hsafe]
    simp
  have hinit : initializeExplicit (some db) (some version) stores allMigrations strategy
      = .ok ⟨version,
          some (applyRemovedStorePolicy strategy db.version
            (detectSchemaChanges (readExistingSchema db) (toDesiredSchema stores))),
          getAppliedMigrations db,
          filterPendingMigrations allMigrations (getAppliedMigrations db),
          some (deferredChangesWarning
            (applyRemovedStorePolicy strategy db.version
              (detectSchemaChanges (readExistingSchema db)
                (toDesiredSchema stores))).safe
            db.version version)⟩ := by
    unfold initializeExplicit
    simp only [hchanges, if_true]
    rw [if_neg hlen, if_pos hver]
  refine ⟨_, hinit, rfl, rfl, ?_, ?_⟩
  · intro c hc
    exact deferredChangesWarning_mentions db.version version hc
  · intro upgrade
    unfold engineOpen
    rcases lt_or_eq_of_le hver with h1 | h1
    · rw [if_pos h1]
    · rw [if_neg (by omega), if_pos h1]

theorem c2_witness :
    ∃ plan,
      initializeExplicit
          (some ⟨1, [⟨"users", some (.scalar "id"), []⟩], []⟩) (some 1)
          [⟨"users", some (.scalar "id"), [⟨"byName", .scalar "name", none, none⟩], []⟩]
          [] .error
          = .ok plan
      ∧ plan.version = 1
      ∧ plan.warning = some (deferredChangesWarning
          (applyRemovedStorePolicy .error 1
            (detectSchemaChanges
              (readExistingSchema ⟨1, [⟨"users", some (.scalar "id"), []⟩], []⟩)
              (toDesiredSchema
                [⟨"users", some (.scalar "id"),
                  [⟨"byName", .scalar "name", none, none⟩], []⟩]))).safe
          1 1)
      ∧ (∀ c ∈ (applyRemovedStorePolicy .error 1
            (detectSchemaChanges
              (readExistingSchema ⟨1, [⟨"users", some (.scalar "id"), []⟩], []⟩)
              (toDesiredSchema
                [⟨"users", some (.scalar "id"),
                  [⟨"byName", .scalar "name", none, none⟩], []⟩]))).safe,
          ∃ pre post,
            deferredChangesWarning
                (applyRemovedStorePolicy .error 1
                  (detectSchemaChanges
                    (readExistingSchema ⟨1, [⟨"users", some (.scalar "id"), []⟩], []⟩)
                    (toDesiredSchema
                      [⟨"users", some (.scalar "id"),
                        [⟨"byName", .scalar "name", none, none⟩], []⟩]))).safe
                1 1
              = pre ++ describeDeferredChange c ++ post)
      ∧ (∀ upgrade,
          (engineOpen ⟨1, [⟨"users", some (.scalar "id"), []⟩], []⟩ 1 upgrade).state
            = ⟨1, [⟨"users", some (.scalar "id"), []⟩], []⟩) :=
  c2_explicit_safe_changes_deferred
    ⟨1, [⟨"users", some (.scalar "id"), []⟩], []⟩ 1
    [⟨"users", some (.scalar "id"), [⟨"byName", .scalar "name", none, none⟩], []⟩]
    [] .error (by decide) (by decide) (by decide)

theorem firstDuplicateName_none :
    ∀ (l : List Migration) (seen : List String), firstDuplicateName l seen = none →
      (l.map Migration.name).Nodup ∧ ∀ n ∈ seen, n ∉ l.map Migration.name := by
  intro l
  induction l with
  | nil =>
    intro seen _
    exact ⟨List.nodup_nil, fun n _ hn => absurd hn (List.not_mem_nil n)⟩
  | cons m rest ih =>
    intro seen h
    unfold firstDuplicateName at h
    by_cases hc : seen.contains m.name = true
    · rw [if_pos hc] at h; cases h
    · rw [if_neg hc] at h
      obtain ⟨hnodup, hdisj⟩ := ih (m.name :: seen) h
      have hmn : m.name ∉ rest.map Migration.name :=
        hdisj m.name (List.mem_cons_self _ _)
      constructor
      · simp only [List.map_cons]
        exact List.nodup_cons.mpr ⟨hmn, hnodup⟩
      · intro n hn
        have hne : n ≠ m.name := by
          intro heq
          subst heq
          exact hc (List.elem_iff.mpr hn)
        simp only [List.map_cons]
        intro hmem
        rcases List.mem_cons.mp hmem with heq | hmem2
        · exact hne heq
        · exact hdisj n (List.mem_cons_of_mem _ hn) hmem2

theorem collectMigrations_ok {stores : List StoreDef} {ms : List Migration}
    (h : collectMigrations stores = .ok ms) :
    ms = sortByName (allMigrationsOf stores)
      ∧ ((allMigrationsOf stores).map Migration.name).Nodup := by
  unfold collectMigrations at h
  cases hdup : firstDuplicateName (allMigrationsOf stores) [] with
  | some n => rw [hdup] at h; cases h
  | none =>
    rw [hdup] at h
    simp only [Except.ok.injEq] at h
    exact ⟨h.symm, (firstDuplicateName_none _ _ hdup).1⟩

theorem sorted_names_strict {ms : List Migration}
    (hsorted : List.Sorted byNameLocaleLe ms)
    (hnodup : (ms.map Migration.name).Nodup) :
    List.Pairwise (fun a b : Migration => byNameLocaleLe a b ∧ a.name ≠ b.name) ms := by
  have hne : List.Pairwise (fun a b : Migration => a.name ≠ b.name) ms :=
    List.pairwise_map.mp hnodup
  exact hsorted.and hne

/-- C5, as amended: the migrations declared across all stores execute
strictly in the total order that the `localeCompare` comparator induces
on their names — which coincides with the lexicographic code-point order
for names of uniform case, but not in general (see
`c5_lexicographic_counterexample`) — `collectMigrations` returns a list
sorted by that order, two declaration groupings carrying the same
migrations yield the same list, and inside the upgrade transaction each
successful migration is run and then immediately recorded in the ledger
before the next migration starts (the event trace interleaves a `record`
of each name right after its `run`). -/
theorem c5_migrations_locale_order_and_ledger :
    (∀ (stores : List StoreDef) (ms : List Migration),
        collectMigrations stores = .ok ms → List.Sorted byNameLocaleLe ms)
  ∧ (∀ (stores₁ stores₂ : List StoreDef) (ms₁ ms₂ : List Migration),
        collectMigrations stores₁ = .ok ms₁ →
        collectMigrations stores₂ = .ok ms₂ →
        (allMigrationsOf stores₁).Perm (allMigrationsOf stores₂) →
        ms₁ = ms₂)
  ∧ (∀ (pending : List Migration) (eff : TxEffect),
        (∀ m ∈ pending, m.up = .success) →
        (runMigrations pending eff).2.1
            = pending.flatMap (fun m => [.run m.name, .record m.name])
          ∧ (runMigrations pending eff).1
            = ⟨eff.ledgerWrites ++ pending.map Migration.name,
                eff.abortRequested⟩) := by
  refine ⟨?_, ?_, ?_⟩
  · intro stores ms hok
    rw [(collectMigrations_ok hok).1]
    exact List.sorted_insertionSort byNameLocaleLe _
  · intro stores₁ stores₂ ms₁ ms₂ hok₁ hok₂ hperm
    obtain ⟨heq₁, hnodup₁⟩ := collectMigrations_ok hok₁
    obtain ⟨heq₂, hnodup₂⟩ := collectMigrations_ok hok₂
    subst heq₁
    subst heq₂
    have hp : (sortByName (allMigrationsOf stores₁)).Perm
        (sortByName (allMigrationsOf stores₂)) :=
      ((List.perm_insertionSort byNameLocaleLe _).trans hperm).trans
        (List.perm_insertionSort byNameLocaleLe _).symm
    have hn₁ : ((sortByName (allMigrationsOf stores₁)).map Migration.name).Nodup :=
      (((List.perm_insertionSort byNameLocaleLe _).map Migration.name).nodup_iff).mpr hnodup₁
    have hn₂ : ((sortByName (allMigrationsOf stores₂)).map Migration.name).Nodup :=
      (((List.perm_insertionSort byNameLocaleLe _).map Migration.name).nodup_iff).mpr hnodup₂
    have hs₁ := sorted_names_strict (List.sorted_insertionSort byNameLocaleLe
      (allMigrationsOf stores₁)) hn₁
    have hs₂ := sorted_names_strict (List.sorted_insertionSort byNameLocaleLe
      (allMigrationsOf stores₂)) hn₂
    haveI : IsAntisymm Migration (fun a b => byNameLocaleLe a b ∧ a.name ≠ b.name) :=
      ⟨fun _ _ h1 h2 => absurd (byNameLocaleLe_antisymm_names h1.1 h2.1) h1.2⟩
    exact List.eq_of_perm_of_sorted hp hs₁ hs₂
  · intro pending
    induction pending with
    | nil =>
      intro eff _
      exact ⟨rfl, by simp [runMigrations]⟩
    | cons m rest ih =>
      intro eff hall
      have hup : m.up = .success := hall m (List.mem_cons_self _ _)
      have hrest := ih { eff with ledgerWrites := eff.ledgerWrites ++ [m.name] }
        fun x hx => hall x (List.mem_cons_of_mem _ hx)
      constructor
      · show (runMigrations (m :: rest) eff).2.1 = _
        unfold runMigrations
        rw [hup]
        simp only [List.flatMap_cons]
        rw [hrest.1]
        rfl
      · show (runMigrations (m :: rest) eff).1 = _
        unfold runMigrations
        rw [hup]
        simp only
        rw [hrest.2]
        simp [List.append_assoc]

theorem c5_witness :
    List.Sorted byNameLocaleLe [⟨"a-y", .success⟩, ⟨"b-x", .success⟩]
  ∧ ([⟨"a-y", MigrationOutcome.success⟩, ⟨"b-x", MigrationOutcome.success⟩]
        : List Migration)
      = [⟨"a-y", .success⟩, ⟨"b-x", .success⟩]
  ∧ ((runMigrations [⟨"a-y", .success⟩, ⟨"b-x", .success⟩] ⟨[], false⟩).2.1
        = [.run "a-y", .record "a-y", .run "b-x", .record "b-x"]
      ∧ (runMigrations [⟨"a-y", .success⟩, ⟨"b-x", .success⟩] ⟨[], false⟩).1
        = ⟨["a-y", "b-x"], false⟩) := by
  refine ⟨?_, ?_, ?_⟩
  · exact c5_migrations_locale_order_and_ledger.1
      [⟨"s1", none, [], [⟨"b-x", .success⟩]⟩, ⟨"s2", none, [], [⟨"a-y", .success⟩]⟩]
      [⟨"a-y", .success⟩, ⟨"b-x", .success⟩] (by rfl)
  · exact c5_migrations_locale_order_and_ledger.2.1
      [⟨"s1", none, [], [⟨"b-x", .success⟩]⟩, ⟨"s2", none, [], [⟨"a-y", .success⟩]⟩]
      [⟨"s", none, [], [⟨"a-y", .success⟩, ⟨"b-x", .success⟩]⟩]
      [⟨"a-y", .success⟩, ⟨"b-x", .success⟩]
      [⟨"a-y", .success⟩, ⟨"b-x", .success⟩]
      (by rfl) (by rfl) (by decide)
  · have h := c5_migrations_locale_order_and_ledger.2.2
      [⟨"a-y", .success⟩, ⟨"b-x", .success⟩] ⟨[], false⟩ (by decide)
    exact ⟨by rw [h.1]; rfl, by rw [h.2]; rfl⟩

/-- C5, counterexample to the claim as stated: the source sorts with
`localeCompare`, not with the lexicographic (code-point) ordering of
names the claim asserts.  With migrations named "Beta" and "alpha" the
collected execution order is ["alpha", "Beta"] (collation compares the
letters case-insensitively at the primary level), which is not
lexicographically sorted, since "B" (U+0042) precedes "a" (U+0061) in
code-point order. -/
theorem c5_lexicographic_counterexample :
    collectMigrations
        [⟨"s1", none, [], [⟨"Beta", .success⟩]⟩,
         ⟨"s2", none, [], [⟨"alpha", .success⟩]⟩]
      = .ok [⟨"alpha", .success⟩, ⟨"Beta", .success⟩]
    ∧ ¬ List.Sorted byNameLexLe
        [⟨"alpha", .success⟩, ⟨"Beta", .success⟩] := by
  constructor
  · rfl
  · intro h
    have h1 := List.rel_of_pairwise_cons h
      (List.mem_cons_self (⟨"Beta", .success⟩ : Migration) [])
    exact absurd h1 (by decide)

/-- The decimal digit characters of a natural number, most significant
first: a structurally recursive account of `Nat.toDigits 10`, used to
reason about the version embedded in backup store names. -/
def decDigits (n : Nat) : List Char :=
  if _h : n < 10 then [Nat.digitChar n]
  else decDigits (n / 10) ++ [Nat.digitChar (n % 10)]
decreasing_by
  exact Nat.div_lt_self (by omega) (by omega)

theorem toDigitsCore_decDigits :
    ∀ (f n : Nat) (acc : List Char), n < f →
      Nat.toDigitsCore 10 f n acc = decDigits n ++ acc := by
  intro f
  induction f with
  | zero => intro n acc h; omega
  | succ f ih =>
    intro n acc h
    by_cases h10 : n < 10
    · have hdiv : n / 10 = 0 := Nat.div_eq_of_lt h10
      have hmod : n % 10 = n := Nat.mod_eq_of_lt h10
      simp only [Nat.toDigitsCore, hdiv, if_true, hmod]
      rw [decDigits, dif_pos h10]
      rfl
    · have hdiv : ¬ (n / 10 = 0) := by omega
      have hlt : n / 10 < f := by
        have h1 : n / 10 < n := Nat.div_lt_self (by omega) (by omega)
        omega
      have hD : decDigits n = decDigits (n / 10) ++ [Nat.digitChar (n % 10)] := by
        rw [decDigits]
        rw [dif_neg h10]
      simp only [Nat.toDigitsCore, hdiv, if_false]
      rw [ih (n / 10) (Nat.digitChar (n % 10) :: acc) hlt, hD]
      simp [List.append_assoc]

theorem repr_data_decDigits (n : Nat) : (Nat.repr n).data = decDigits n := by
  show ((Nat.toDigits 10 n).asString).data = decDigits n
  unfold Nat.toDigits
  rw [toDigitsCore_decDigits (n + 1) n [] (by omega)]
  simp [List.asString]

/-- The numeric value of a decimal digit character. -/
def decValue (c : Char) : Nat :=
  c.toNat - 48

/-- Parse a most-significant-first decimal digit list back to a number. -/
def decParse (l : List Char) : Nat :=
  l.foldl (fun acc c => acc * 10 + decValue c) 0

theorem decValue_digitChar {d : Nat} (h : d < 10) :
    decValue (Nat.digitChar d) = d := by
  interval_cases d <;> rfl

theorem decParse_decDigits : ∀ n : Nat, decParse (decDigits n) = n := by
  intro n
  induction n using Nat.strong_induction_on with
  | _ n ih =>
    by_cases h : n < 10
    · rw [decDigits, dif_pos h]
      simp [decParse, decValue_digitChar h]
    · rw [decDigits, dif_neg h]
      have hdivlt : n / 10 < n := Nat.div_lt_self (by omega) (by omega)
      have hmod : n % 10 < 10 := Nat.mod_lt _ (by omega)
      have hsub : (decDigits (n / 10)).foldl (fun acc c => acc * 10 + decValue c) 0
          = n / 10 := ih _ hdivlt
      rw [decParse, List.foldl_append]
      simp only [List.foldl_cons, List.foldl_nil]
      rw [hsub, decValue_digitChar hmod]
      omega

theorem natRepr_injective {m n : Nat} (h : Nat.repr m = Nat.repr n) : m = n := by
  have hd : decDigits m = decDigits n := by
    rw [← repr_data_decDigits, ← repr_data_decDigits, h]
  have hp := congrArg decParse hd
  rwa [decParse_decDigits, decParse_decDigits] at hp

theorem backupName_version_injective (storeName : String) {v1 v2 : Nat}
    (h : backupName storeName v1 = backupName storeName v2) : v1 = v2 := by
  have hdata := congrArg String.data h
  simp only [backupName, String.data_append, List.append_assoc] at hdata
  have h1 := List.append_cancel_left hdata
  have h2 := List.append_cancel_left h1
  have h3 := List.append_cancel_left h2
  have h4 := List.append_cancel_right h3
  exact natRepr_injective (String.ext h4)

theorem policyRewrite_preserve_rename {v : Nat} :
    ∀ {l : List SchemaChangeType} {storeName : String},
      SchemaChangeType.store_delete storeName ∈ l →
      SchemaChangeType.store_rename storeName (backupName storeName v)
        ∈ (policyRewrite .preserve v l).1 := by
  intro l
  induction l with
  | nil => intro s h; cases h
  | cons hd rest ih =>
    intro s h
    rcases List.mem_cons.mp h with heq | hmem
    · rw [← heq]
      exact List.mem_cons_self _ _
    · cases hd with
      | store_delete n => exact List.mem_cons_of_mem _ (ih hmem)
      | store_add n => exact ih hmem
      | store_rename a b => exact ih hmem
      | keypath_change a b k => exact ih hmem
      | index_add a b i => exact ih hmem
      | index_delete a b => exact ih hmem
      | index_modify a b o i => exact ih hmem

theorem policyRewrite_preserve_no_delete {v : Nat} :
    ∀ {l : List SchemaChangeType} {storeName : String},
      SchemaChangeType.store_delete storeName ∉ (policyRewrite .preserve v l).2 := by
  intro l
  induction l with
  | nil => intro s h; cases h
  | cons hd rest ih =>
    intro s h
    cases hd with
    | store_delete n => exact ih h
    | store_add n =>
      rcases List.mem_cons.mp h with heq | hmem
      · cases heq
      · exact ih hmem
    | store_rename a b =>
      rcases List.mem_cons.mp h with heq | hmem
      · cases heq
      · exact ih hmem
    | keypath_change a b k =>
      rcases List.mem_cons.mp h with heq | hmem
      · cases heq
      · exact ih hmem
    | index_add a b i =>
      rcases List.mem_cons.mp h with heq | hmem
      · cases heq
      · exact ih hmem
    | index_delete a b =>
      rcases List.mem_cons.mp h with heq | hmem
      · cases heq
      · exact ih hmem
    | index_modify a b o i =>
      rcases List.mem_cons.mp h with heq | hmem
      · cases heq
      · exact ih hmem

/-- C4: under the `preserve` policy every `store_delete` is rewritten into
a safe `store_rename` whose new name embeds the current pre-upgrade
version as `__` + name + `_deleted_v` + version + `__`; the version
argument determines the name injectively, so deleting and recreating the
same store name across N successive versions yields N pairwise distinct
backup names — backup names for the same store never collide. -/
theorem c4_preserve_backup_names (storeName : String) (currentVersion : Nat) :
    (∀ changes : SchemaChanges,
        SchemaChangeType.store_delete storeName ∈ changes.dangerous →
          SchemaChangeType.store_rename storeName (backupName storeName currentVersion)
              ∈ (applyRemovedStorePolicy .preserve currentVersion changes).safe
            ∧ SchemaChangeType.store_delete storeName
              ∉ (applyRemovedStorePolicy .preserve currentVersion changes).dangerous)
  ∧ backupName storeName currentVersion
      = "__" ++ storeName ++ "_deleted_v" ++ toString currentVersion ++ "__"
  ∧ (∀ v1 v2 : Nat, backupName storeName v1 = backupName storeName v2 → v1 = v2)
  ∧ (∀ versions : List Nat, versions.Nodup →
      (versions.map (backupName storeName)).Nodup) := by
  refine ⟨?_, rfl, ?_, ?_⟩
  · intro changes hmem
    constructor
    · exact List.mem_append_right _ (policyRewrite_preserve_rename hmem)
    · exact policyRewrite_preserve_no_delete
  · intro v1 v2 h
    exact backupName_version_injective storeName h
  · intro versions h
    exact List.Nodup.map (fun _ _ hv => backupName_version_injective storeName hv) h

theorem c4_witness :
    (SchemaChangeType.store_rename "posts" (backupName "posts" 3)
        ∈ (applyRemovedStorePolicy .preserve 3
            ⟨[], [.store_delete "posts"], true⟩).safe
      ∧ SchemaChangeType.store_delete "posts"
          ∉ (applyRemovedStorePolicy .preserve 3
              ⟨[], [.store_delete "posts"], true⟩).dangerous)
  ∧ ([1, 2, 3].map (backupName "posts")).Nodup :=
  ⟨(c4_preserve_backup_names "posts" 3).1
      ⟨[], [.store_delete "posts"], true⟩ (by decide),
   (c4_preserve_backup_names "posts" 0).2.2.2 [1, 2, 3] (by decide)⟩

end SchemaIDB
